import Mathlib

set_option maxRecDepth 8000

/- Shallow embedding of the yurl URL library (src/yurl/__init__.py).
   Python strings are modelled as lists of characters. Python's
   str.lower and str.isdigit are modelled on their ASCII behaviour. -/

abbrev Str := List Char

/-- ASCII lowercasing of one character (Python str.lower on ASCII). -/
def lowerChar : Char → Char
| 'A' => 'a'
| 'B' => 'b'
| 'C' => 'c'
| 'D' => 'd'
| 'E' => 'e'
| 'F' => 'f'
| 'G' => 'g'
| 'H' => 'h'
| 'I' => 'i'
| 'J' => 'j'
| 'K' => 'k'
| 'L' => 'l'
| 'M' => 'm'
| 'N' => 'n'
| 'O' => 'o'
| 'P' => 'p'
| 'Q' => 'q'
| 'R' => 'r'
| 'S' => 's'
| 'T' => 't'
| 'U' => 'u'
| 'V' => 'v'
| 'W' => 'w'
| 'X' => 'x'
| 'Y' => 'y'
| 'Z' => 'z'
| c => c

/-- Characters allowed in the scheme part of the split regex: `[^:/?#]`. -/
def isSchemeChar (c : Char) : Bool := !(c == ':' || c == '/' || c == '?' || c == '#')

/-- Characters allowed in the userinfo part of the split regex: `[^/?#@]`. -/
def isUserinfoChar (c : Char) : Bool := !(c == '/' || c == '?' || c == '#' || c == '@')

/-- Characters allowed in the host:port part of the split regex: `[^/?#]`. -/
def isHostChar (c : Char) : Bool := !(c == '/' || c == '?' || c == '#')

/-- Characters allowed in the path part of the split regex: `[^?#]`. -/
def isPathChar (c : Char) : Bool := !(c == '?' || c == '#')

/-- Characters allowed in the query part of the split regex: `[^#]`. -/
def isQueryChar (c : Char) : Bool := !(c == '#')

/-- The optional `(?:([^:/?#]+):)?` group of `URL._split_re`:
    returns the scheme (when present) and the unconsumed remainder. -/
def splitScheme (s : Str) : Option Str × Str :=
  match s.dropWhile isSchemeChar with
  | ':' :: r => if s.takeWhile isSchemeChar = [] then (none, s) else (some (s.takeWhile isSchemeChar), r)
  | _ => (none, s)

/-- The optional `(?:([^/?#@]*)@)?` group inside the authority. -/
def splitUserinfo (t : Str) : Option Str × Str :=
  match t.dropWhile isUserinfoChar with
  | '@' :: r => (some (t.takeWhile isUserinfoChar), r)
  | _ => (none, t)

/-- The optional `(?://(?:([^/?#@]*)@)?([^/?#]*)())?` authority group:
    returns (userinfo?, raw host:port text) when `//` is present. -/
def splitAuthority (r : Str) : Option (Option Str × Str) × Str :=
  match r with
  | '/' :: '/' :: t =>
    let p := splitUserinfo t
    (some (p.1, p.2.takeWhile isHostChar), p.2.dropWhile isHostChar)
  | _ => (none, r)

/-- Split a list at its last occurrence of `d` (Python `str.rfind`):
    `some (before, after)` when `d` occurs, `none` otherwise. -/
def splitLastOn (d : Char) : Str → Option (Str × Str)
| [] => none
| c :: rest =>
  match splitLastOn d rest with
  | some (b, a) => some (c :: b, a)
  | none => if c = d then some ([], rest) else none

/-- The host/port disambiguation pass of `URL.__new__`: split the raw
    authority-minus-userinfo text at its last `:`; the suffix becomes the
    port only when it is empty or entirely digits. -/
def splitPort (hp : Str) : Str × Str :=
  match splitLastOn ':' hp with
  | some (b, suf) => if suf = [] ∨ suf.all Char.isDigit then (b, suf) else (hp, [])
  | none => (hp, [])

/-- The `\??([^#]*)` group: consumes a leading `?` when present. -/
def splitQuery (r : Str) : Option Str × Str :=
  match r with
  | '?' :: t => (some (t.takeWhile isQueryChar), t.dropWhile isQueryChar)
  | _ => (none, r)

/-- The `\#?(.*)` group: consumes a leading `#` when present. -/
def splitFragment (r : Str) : Str :=
  match r with
  | '#' :: t => t
  | t => t

/-- The URI Value: the `URLTuple` namedtuple, in its field order
    `scheme host path query fragment userinfo port`. -/
structure URL where
  scheme : Str
  host : Str
  path : Str
  query : Str
  fragment : Str
  userinfo : Str
  port : Str
deriving DecidableEq, Repr

/-- `URL.__new__` with a non-None `url` argument: split with `_split_re`,
    disambiguate host/port, lowercase scheme and host. -/
def parse (s : Str) : URL :=
  let p1 := splitScheme s
  let p2 := splitAuthority p1.2
  let hp := match p2.1 with | some a => a.2 | none => []
  let ui := match p2.1 with | some a => a.1.getD [] | none => []
  let hostport := splitPort hp
  let path := p2.2.takeWhile isPathChar
  let p3 := splitQuery (p2.2.dropWhile isPathChar)
  { scheme := (p1.1.getD []).map lowerChar
    host := hostport.1.map lowerChar
    path := path
    query := p3.1.getD []
    fragment := splitFragment p3.2
    userinfo := ui
    port := hostport.2 }

/-- `URL.__new__` with `url=None`: construction from explicit parts. -/
def construct (scheme host path query fragment userinfo port : Str) : URL :=
  let path2 :=
    if (userinfo ≠ [] ∨ host ≠ [] ∨ port ≠ []) ∧ path ≠ [] ∧ path.head? ≠ some '/'
    then '/' :: path else path
  { scheme := scheme.map lowerChar
    host := host.map lowerChar
    path := path2
    query := query
    fragment := fragment
    userinfo := userinfo
    port := port }

/-- The `authority` property. -/
def URL.authority (v : URL) : Str :=
  let a := v.host ++ (if v.port = [] then [] else ':' :: v.port)
  if v.userinfo = [] then a else v.userinfo ++ '@' :: a

/-- The `full_path` property. -/
def URL.full_path (v : URL) : Str :=
  v.path ++ (if v.query = [] then [] else '?' :: v.query)
         ++ (if v.fragment = [] then [] else '#' :: v.fragment)

/-- `URL.__unicode__` / `as_string`: serialization. -/
def URL.as_string (v : URL) : Str :=
  let auth := v.authority
  let base :=
    if auth ≠ [] then '/' :: '/' :: auth
    else if v.path.take 2 = ['/', '/'] then ['/', '/']
    else []
  let base2 :=
    if v.scheme ≠ [] then v.scheme ++ ':' :: base
    else if base = [] ∧ ':' ∈ v.path.takeWhile (fun c => !(c == '/')) then ['.', '/']
    else base
  base2 ++ v.full_path

/-- Python `path.split(d)` for a one-character separator: keeps empty
    segments, and splitting the empty string gives one empty segment. -/
def splitOnChar (d : Char) : Str → List Str
| [] => [[]]
| c :: r =>
  if c = d then [] :: splitOnChar d r
  else
    match splitOnChar d r with
    | [] => [[c]]
    | s :: rest => (c :: s) :: rest

/-- Python `'/'.join(segs)`. -/
def joinSlash : List Str → Str
| [] => []
| [s] => s
| s :: rest => s ++ '/' :: joinSlash rest

/-- The deque loop of `URL.remove_dot_segments`. -/
def rdsFold (segs : List Str) : List Str :=
  segs.foldl (fun stack seg =>
    if seg = ['.'] then stack
    else if seg = ['.', '.'] then stack.dropLast
    else stack ++ [seg]) []

/-- `URL.remove_dot_segments`. -/
def remove_dot_segments (path : Str) : Str :=
  let stack := rdsFold (splitOnChar '/' path)
  let stack2 :=
    if ['/', '.'].isSuffixOf path ∨ ['/', '.', '.'].isSuffixOf path
    then stack ++ [([] : Str)] else stack
  joinSlash stack2

/-- `self.path.rpartition('/')`: text up to and including the last slash
    (empty when there is no slash). -/
def upToLastSlash (s : Str) : Str :=
  match splitLastOn '/' s with
  | some x => x.1 ++ ['/']
  | none => []

/-- `URL.__add__`: RFC 3986 reference resolution of `other` against `self`. -/
def URL.add (self other : URL) : URL :=
  if other.scheme ≠ [] then
    construct other.scheme other.host (remove_dot_segments other.path)
      other.query other.fragment other.userinfo other.port
  else if other.host ≠ [] ∨ other.userinfo ≠ [] ∨ other.port ≠ [] then
    construct self.scheme other.host (remove_dot_segments other.path)
      other.query other.fragment other.userinfo other.port
  else if other.path = [] then
    construct self.scheme self.host (remove_dot_segments self.path)
      (if other.query = [] then self.query else other.query)
      other.fragment self.userinfo self.port
  else
    let path :=
      if other.path.head? ≠ some '/'
      then upToLastSlash self.path ++ other.path
      else other.path
    construct self.scheme self.host (remove_dot_segments path)
      other.query other.fragment self.userinfo self.port

/-- Validation errors of the `validate` method, one per classified
    exception (`InvalidScheme`, `InvalidUserinfo`, `InvalidHost`,
    `InvalidPath`, `InvalidQuery`). -/
inductive VError
| invalidScheme
| invalidUserinfo
| invalidHost
| invalidPath
| invalidQuery
deriving DecidableEq, Repr

/-- ASCII lowercase letter. -/
def isLowerAlpha (c : Char) : Bool := 'a' ≤ c && c ≤ 'z'

/-- Scheme body characters of `_valid_scheme_re`: `[a-z0-9+\-.]`. -/
def isSchemeBody (c : Char) : Bool :=
  isLowerAlpha c || c.isDigit || c == '+' || c == '-' || c == '.'

/-- Full match of `[a-z][a-z0-9+\-.]*`. -/
def schemeCore : Str → Bool
| [] => false
| c :: r => isLowerAlpha c && r.all isSchemeBody

/-- Python's `$` anchor: a full match of the core, either of the whole
    string or of everything before a single trailing newline. -/
def dollarEnd (core : Str → Bool) (s : Str) : Bool :=
  core s || (s.getLast? == some '\n' && core s.dropLast)

/-- `_valid_scheme_re` (`^[a-z][a-z0-9+\-.]*$`). -/
def matchScheme : Str → Bool := dollarEnd schemeCore

/-- Full match of `[^/?#@\[\]]+`. -/
def userinfoCore (s : Str) : Bool :=
  !s.isEmpty && s.all (fun c =>
    !(c == '/' || c == '?' || c == '#' || c == '@' || c == '[' || c == ']'))

/-- `_valid_userinfo_re` (`^[^/?#@\[\]]+$`). -/
def matchUserinfo : Str → Bool := dollarEnd userinfoCore

/-- Full match of `[^/?#@\[\]:]+`. -/
def regNameCore (s : Str) : Bool :=
  !s.isEmpty && s.all (fun c =>
    !(c == '/' || c == '?' || c == '#' || c == '@' || c == '[' || c == ']' || c == ':'))

/-- `_valid_reg_name_re` (`^[^/?#@\[\]:]+$`). -/
def matchRegName : Str → Bool := dollarEnd regNameCore

/-- Full match of `[^?#]+`. -/
def pathCore (s : Str) : Bool := !s.isEmpty && s.all isPathChar

/-- `_valid_path_re` (`^[^?#]+$`). -/
def matchPath : Str → Bool := dollarEnd pathCore

/-- Full match of `[^#]+`. -/
def queryCore (s : Str) : Bool := !s.isEmpty && s.all isQueryChar

/-- `_valid_query_re` (`^[^#]+$`). -/
def matchQuery : Str → Bool := dollarEnd queryCore

/-- `[a-f0-9]` under `re.IGNORECASE`. -/
def isHexIC (c : Char) : Bool :=
  c.isDigit || ('a' ≤ c && c ≤ 'f') || ('A' ≤ c && c ≤ 'F')

/-- `[a-z0-9\-._~!$&'()*,;=:]` under `re.IGNORECASE`. -/
def isVTail (c : Char) : Bool :=
  ('a' ≤ c && c ≤ 'z') || ('A' ≤ c && c ≤ 'Z') || c.isDigit ||
  c == '-' || c == '.' || c == '_' || c == '~' || c == '!' || c == '$' ||
  c == '&' || c == '\'' || c == '(' || c == ')' || c == '*' || c == ',' ||
  c == ';' || c == '=' || c == ':'

/-- `[a-f0-9:\.]` under `re.IGNORECASE`. -/
def isIpv6Char (c : Char) : Bool := isHexIC c || c == ':' || c == '.'

/-- Full match of `v[a-f0-9]+\.[a-z0-9\-._~!$&'()*,;=:]+ | [a-f0-9:\.]+`. -/
def ipLiteralCore (s : Str) : Bool :=
  (match s with
   | c :: t =>
     (c == 'v' || c == 'V') && !(t.takeWhile isHexIC).isEmpty &&
     (match t.dropWhile isHexIC with
      | '.' :: r => !r.isEmpty && r.all isVTail
      | _ => false)
   | [] => false)
  || (!s.isEmpty && s.all isIpv6Char)

/-- `_valid_ip_literal_re`. -/
def matchIpLiteral : Str → Bool := dollarEnd ipLiteralCore

/-- The host check of `validate`: bracketed hosts must have an IP-literal
    interior, all other hosts must match the reg-name pattern. -/
def validHostCheck (h : Str) : Bool :=
  if h.head? = some '[' ∧ h.getLast? = some ']'
  then matchIpLiteral ((h.drop 1).dropLast)
  else matchRegName h

/-- `URL.validate`: checks scheme, userinfo, host, path, query in order,
    each only when non-empty; returns the value itself on success. -/
def validate (v : URL) : Except VError URL :=
  if v.scheme ≠ [] ∧ matchScheme v.scheme = false then .error .invalidScheme
  else if v.userinfo ≠ [] ∧ matchUserinfo v.userinfo = false then .error .invalidUserinfo
  else if v.host ≠ [] ∧ validHostCheck v.host = false then .error .invalidHost
  else if v.path ≠ [] ∧ matchPath v.path = false then .error .invalidPath
  else if v.query ≠ [] ∧ matchQuery v.query = false then .error .invalidQuery
  else .ok v

/-- Python `int(part, 10)` on a string of ASCII digits. -/
def digitsToNat (p : Str) : Nat := p.foldl (fun n c => n * 10 + (c.toNat - 48)) 0

/-- `URL.is_host_ipv4`. -/
def URL.is_host_ipv4 (v : URL) : Bool :=
  if v.host.head? = some '[' then false
  else
    let parts := splitOnChar '.' v.host
    decide (parts.length = 4) && parts.all (fun p => !p.isEmpty && p.all Char.isDigit)
      && parts.all (fun p => digitsToNat p < 256)

/-- `URL.is_host_ip`. -/
def URL.is_host_ip (v : URL) : Bool :=
  if v.is_host_ipv4 then true
  else if v.host.head? = some '[' ∧ v.host.getLast? = some ']' then true
  else false

/-- `CachedURL._cache_size`. -/
def cacheSize : Nat := 20

/-- The process-wide `CachedURL._cache` mapping, modelled as an
    association list with distinct keys. -/
structure Cache where
  entries : List (Str × URL)
deriving DecidableEq, Repr

/-- `cls._cache.get(url)`. -/
def cacheLookup (c : Cache) (u : Str) : Option URL :=
  match c.entries.find? (fun e => e.1 == u) with
  | some e => some e.2
  | none => none

/-- `CachedURL.__new__` with a non-None url: lookup, and on a miss clear
    the mapping when it is full, then parse and insert. -/
def cachedParse (c : Cache) (u : Str) : URL × Cache :=
  match cacheLookup c u with
  | some v => (v, c)
  | none =>
    let kept := if cacheSize ≤ c.entries.length then [] else c.entries
    (parse u, ⟨kept ++ [(u, parse u)]⟩)

/-- `CachedURL.__new__` with `url=None`: plain construction, no caching. -/
def cachedConstruct (c : Cache) (scheme host path query fragment userinfo port : Str) :
    URL × Cache :=
  (construct scheme host path query fragment userinfo port, c)

/-- One observable interaction with the cached constructor. -/
inductive CacheOp
| parseOp (u : Str)
| buildOp (scheme host path query fragment userinfo port : Str)

/-- Effect of one interaction on the cache. -/
def cacheStep (c : Cache) : CacheOp → Cache
| .parseOp u => (cachedParse c u).2
| .buildOp a b d e f g h => (cachedConstruct c a b d e f g h).2

/-- Effect of a sequence of interactions on the cache. -/
def runCache (c : Cache) : List CacheOp → Cache
| [] => c
| op :: ops => runCache (cacheStep c op) ops

instance : DecidableEq (Except VError URL) := fun a b =>
  match a, b with
  | .ok x, .ok y => decidable_of_iff (x = y) (by simp)
  | .error x, .error y => decidable_of_iff (x = y) (by simp)
  | .ok _, .error _ => isFalse (by simp)
  | .error _, .ok _ => isFalse (by simp)

/- ### Character-level facts -/

/-- The uppercase ASCII letters. -/
def upperChars : List Char :=
  ['A','B','C','D','E','F','G','H','I','J','K','L','M','N','O','P','Q','R','S','T','U','V','W','X','Y','Z']

/-- The lowercase ASCII letters. -/
def lowerChars : List Char :=
  ['a','b','c','d','e','f','g','h','i','j','k','l','m','n','o','p','q','r','s','t','u','v','w','x','y','z']

/-- The delimiter characters used by the split pattern. -/
def delimChars : List Char := [':', '/', '?', '#', '@']

theorem lowerChar_eq_or (c : Char) :
    lowerChar c = c ∨ (c ∈ upperChars ∧ lowerChar c ∈ lowerChars) := by
  unfold lowerChar
  split <;> first
  | (left; rfl)
  | (right; exact ⟨by decide, by decide⟩)

theorem lowerChar_fix_of_lower (d : Char) (hd : d ∈ lowerChars) : lowerChar d = d := by
  fin_cases hd <;> rfl

theorem lowerChar_idem (c : Char) : lowerChar (lowerChar c) = lowerChar c := by
  rcases lowerChar_eq_or c with h | ⟨_, hl⟩
  · rw [h]; exact h
  · exact lowerChar_fix_of_lower _ hl

theorem map_lowerChar_idem (s : Str) :
    (s.map lowerChar).map lowerChar = s.map lowerChar := by
  rw [List.map_map]
  exact List.map_congr_left (fun c _ => lowerChar_idem c)

theorem lowerChar_beq_delim (c d : Char) (hd : d ∈ delimChars) :
    (lowerChar c == d) = (c == d) := by
  rcases lowerChar_eq_or c with h | ⟨hu, hl⟩
  · rw [h]
  · have h1 : lowerChar c ≠ d := by
      intro h; rw [h] at hl; fin_cases hd <;> exact absurd hl (by decide)
    have h2 : c ≠ d := by
      intro h; rw [h] at hu; fin_cases hd <;> exact absurd hu (by decide)
    rw [beq_eq_false_iff_ne.mpr h1, beq_eq_false_iff_ne.mpr h2]

theorem isSchemeChar_lowerChar (c : Char) : isSchemeChar (lowerChar c) = isSchemeChar c := by
  simp only [isSchemeChar, lowerChar_beq_delim c ':' (by decide),
    lowerChar_beq_delim c '/' (by decide), lowerChar_beq_delim c '?' (by decide),
    lowerChar_beq_delim c '#' (by decide)]

theorem isHostChar_lowerChar (c : Char) : isHostChar (lowerChar c) = isHostChar c := by
  simp only [isHostChar, lowerChar_beq_delim c '/' (by decide),
    lowerChar_beq_delim c '?' (by decide), lowerChar_beq_delim c '#' (by decide)]

theorem lowerChar_beq_at (c : Char) : (lowerChar c == '@') = (c == '@') :=
  lowerChar_beq_delim c '@' (by decide)

theorem isSchemeChar_iff (c : Char) :
    isSchemeChar c = true ↔ (c ≠ ':' ∧ c ≠ '/' ∧ c ≠ '?' ∧ c ≠ '#') := by
  simp [isSchemeChar, not_or]; tauto

theorem isUserinfoChar_iff (c : Char) :
    isUserinfoChar c = true ↔ (c ≠ '/' ∧ c ≠ '?' ∧ c ≠ '#' ∧ c ≠ '@') := by
  simp [isUserinfoChar, not_or]; tauto

theorem isHostChar_iff (c : Char) :
    isHostChar c = true ↔ (c ≠ '/' ∧ c ≠ '?' ∧ c ≠ '#') := by
  simp [isHostChar, not_or]; tauto

theorem isPathChar_iff (c : Char) :
    isPathChar c = true ↔ (c ≠ '?' ∧ c ≠ '#') := by
  simp [isPathChar, not_or]

theorem isQueryChar_iff (c : Char) :
    isQueryChar c = true ↔ c ≠ '#' := by
  simp [isQueryChar]

theorem isDigit_ne_delim (c d : Char) (hd : d ∈ delimChars) (h : c.isDigit = true) :
    c ≠ d := by
  intro he; rw [he] at h; fin_cases hd <;> exact absurd h (by decide)

theorem isUserinfoChar_of_digit (c : Char) (h : c.isDigit = true) :
    isUserinfoChar c = true := by
  rw [isUserinfoChar_iff]
  exact ⟨isDigit_ne_delim c '/' (by decide) h, isDigit_ne_delim c '?' (by decide) h,
    isDigit_ne_delim c '#' (by decide) h, isDigit_ne_delim c '@' (by decide) h⟩

theorem isHostChar_of_digit (c : Char) (h : c.isDigit = true) :
    isHostChar c = true := by
  rw [isHostChar_iff]
  exact ⟨isDigit_ne_delim c '/' (by decide) h, isDigit_ne_delim c '?' (by decide) h,
    isDigit_ne_delim c '#' (by decide) h⟩

theorem isHostChar_of_isUserinfoChar (c : Char) (h : isUserinfoChar c = true) :
    isHostChar c = true := by
  rw [isUserinfoChar_iff] at h
  rw [isHostChar_iff]
  exact ⟨h.1, h.2.1, h.2.2.1⟩

/- ### Facts about the split stages -/

theorem splitScheme_of (sch r : Str) (h1 : sch ≠ [])
    (h2 : ∀ c ∈ sch, isSchemeChar c = true) :
    splitScheme (sch ++ ':' :: r) = (some sch, r) := by
  unfold splitScheme
  rw [List.dropWhile_append_of_pos h2, List.takeWhile_append_of_pos h2,
    List.dropWhile_cons_of_neg (by decide), List.takeWhile_cons_of_neg (by decide)]
  simp [h1]

theorem splitScheme_none (s : Str) (h : (s.dropWhile isSchemeChar).head? ≠ some ':') :
    splitScheme s = (none, s) := by
  unfold splitScheme
  split
  · rename_i r heq
    rw [heq] at h
    simp at h
  · rfl

theorem splitUserinfo_of (u r : Str) (hu : ∀ c ∈ u, isUserinfoChar c = true) :
    splitUserinfo (u ++ '@' :: r) = (some u, r) := by
  unfold splitUserinfo
  rw [List.dropWhile_append_of_pos hu, List.takeWhile_append_of_pos hu,
    List.dropWhile_cons_of_neg (by decide), List.takeWhile_cons_of_neg (by decide)]
  simp

theorem splitUserinfo_none (t : Str) (h : (t.dropWhile isUserinfoChar).head? ≠ some '@') :
    splitUserinfo t = (none, t) := by
  unfold splitUserinfo
  split
  · rename_i r heq
    rw [heq] at h
    simp at h
  · rfl

theorem splitAuthority_cons (t : Str) :
    splitAuthority ('/' :: '/' :: t) =
      (some ((splitUserinfo t).1, (splitUserinfo t).2.takeWhile isHostChar),
       (splitUserinfo t).2.dropWhile isHostChar) := rfl

theorem splitAuthority_none (r : Str) (h : ∀ t, r ≠ '/' :: '/' :: t) :
    splitAuthority r = (none, r) := by
  unfold splitAuthority
  split
  · rename_i t
    exact absurd rfl (h t)
  · rfl

theorem splitLastOn_eq_none (d : Char) : ∀ s : Str, d ∉ s → splitLastOn d s = none
| [], _ => rfl
| c :: rest, h => by
  have h1 : d ∉ rest := fun hm => h (List.mem_cons_of_mem _ hm)
  have h2 : ¬ c = d := by
    intro he
    exact h (by rw [← he]; exact List.mem_cons_self c rest)
  simp [splitLastOn, splitLastOn_eq_none d rest h1, h2]

theorem splitLastOn_none_imp (d : Char) : ∀ s : Str, splitLastOn d s = none → d ∉ s
| [], _ => by simp
| c :: rest, h => by
  unfold splitLastOn at h
  rcases hr : splitLastOn d rest with _ | p
  · rw [hr] at h
    by_cases hc : c = d
    · simp [hc] at h
    · have := splitLastOn_none_imp d rest hr
      simp [hc, List.mem_cons]
      exact ⟨fun he => hc he.symm, this⟩
  · rw [hr] at h
    simp at h

theorem splitLastOn_append (d : Char) (b a : Str) (h : d ∉ a) :
    splitLastOn d (b ++ d :: a) = some (b, a) := by
  induction b with
  | nil => simp [splitLastOn, splitLastOn_eq_none d a h]
  | cons c b ih => simp [splitLastOn, ih]

theorem splitLastOn_eq_some (d : Char) :
    ∀ s b a : Str, splitLastOn d s = some (b, a) → s = b ++ d :: a ∧ d ∉ a
| [], b, a, h => by simp [splitLastOn] at h
| c :: rest, b, a, h => by
  unfold splitLastOn at h
  rcases hr : splitLastOn d rest with _ | ⟨b', a'⟩
  · rw [hr] at h
    by_cases hc : c = d
    · subst hc
      simp at h
      rcases h with ⟨hb, ha⟩
      subst hb; subst ha
      exact ⟨rfl, splitLastOn_none_imp c rest hr⟩
    · simp [hc] at h
  · rw [hr] at h
    simp at h
    rcases h with ⟨hb, ha⟩
    have := splitLastOn_eq_some d rest b' a' hr
    subst hb; subst ha
    exact ⟨by rw [List.cons_append, ← this.1], this.2⟩

theorem splitPort_append_digits (host port : Str) (hd : port.all Char.isDigit = true) :
    splitPort (host ++ ':' :: port) = (host, port) := by
  have hc : ':' ∉ port := by
    intro hm
    have := List.all_eq_true.mp hd ':' hm
    exact absurd this (by decide)
  unfold splitPort
  rw [splitLastOn_append ':' host port hc]
  simp [hd]

theorem splitPort_no_colon (hp : Str) (h : ':' ∉ hp) : splitPort hp = (hp, []) := by
  unfold splitPort
  rw [splitLastOn_eq_none ':' hp h]

theorem splitPort_cases (hp : Str) :
    ((splitPort hp).2 = [] ∨ (splitPort hp).2.all Char.isDigit = true) ∧
    (hp = (splitPort hp).1 ++ ':' :: (splitPort hp).2 ∨
      ((splitPort hp).1 = hp ∧ (splitPort hp).2 = [])) := by
  unfold splitPort
  split
  · rename_i b suf heq
    rcases splitLastOn_eq_some ':' hp b suf heq with ⟨h1, _⟩
    split
    · rename_i hsuf
      exact ⟨hsuf, Or.inl h1⟩
    · exact ⟨Or.inl rfl, Or.inr ⟨rfl, rfl⟩⟩
  · exact ⟨Or.inl rfl, Or.inr ⟨rfl, rfl⟩⟩

theorem splitQuery_cons (t : Str) :
    splitQuery ('?' :: t) = (some (t.takeWhile isQueryChar), t.dropWhile isQueryChar) := rfl

theorem splitQuery_none (r : Str) (h : r.head? ≠ some '?') :
    splitQuery r = (none, r) := by
  unfold splitQuery
  split
  · simp at h
  · rfl

theorem splitFragment_cons (t : Str) : splitFragment ('#' :: t) = t := rfl

theorem splitFragment_none (r : Str) (h : r.head? ≠ some '#') :
    splitFragment r = r := by
  unfold splitFragment
  split
  · simp at h
  · rfl

theorem dropWhile_head_not (p : Char → Bool) (l : Str) :
    l.dropWhile p = [] ∨ ∃ c t, l.dropWhile p = c :: t ∧ p c = false := by
  have hh := List.head?_dropWhile_not p l
  cases hd : l.dropWhile p with
  | nil => exact Or.inl rfl
  | cons c t =>
    right
    refine ⟨c, t, rfl, ?_⟩
    rw [hd] at hh
    simpa using hh

theorem splitScheme_inv (s sch r : Str) (h : splitScheme s = (some sch, r)) :
    sch = s.takeWhile isSchemeChar ∧ s = sch ++ ':' :: r ∧ sch ≠ [] := by
  unfold splitScheme at h
  split at h
  · rename_i r' heq
    by_cases hp : s.takeWhile isSchemeChar = []
    · simp [hp] at h
    · simp [hp] at h
      rcases h with ⟨h1, h2⟩
      refine ⟨h1.symm, ?_, by rw [← h1]; exact hp⟩
      rw [← h1, ← h2]
      conv_lhs => rw [← List.takeWhile_append_dropWhile (p := isSchemeChar) (l := s)]
      rw [heq]
  · simp at h

theorem splitAuthority_inv (r : Str) (oui : Option Str) (hp r2 : Str)
    (h : splitAuthority r = (some (oui, hp), r2)) :
    ∃ t, r = '/' :: '/' :: t ∧ oui = (splitUserinfo t).1 ∧
      hp = (splitUserinfo t).2.takeWhile isHostChar ∧
      r2 = (splitUserinfo t).2.dropWhile isHostChar := by
  unfold splitAuthority at h
  split at h
  · rename_i t
    simp at h
    exact ⟨t, rfl, h.1.1.symm, h.1.2.symm, h.2.symm⟩
  · simp at h

theorem splitUserinfo_inv (t : Str) (ou : Option Str) (rest : Str)
    (h : splitUserinfo t = (ou, rest)) :
    (ou = none ∧ rest = t) ∨
      ∃ u, ou = some u ∧ u = t.takeWhile isUserinfoChar ∧ t = u ++ '@' :: rest := by
  unfold splitUserinfo at h
  split at h
  · rename_i r' heq
    simp at h
    right
    refine ⟨t.takeWhile isUserinfoChar, h.1.symm, rfl, ?_⟩
    rw [← h.2]
    conv_lhs => rw [← List.takeWhile_append_dropWhile (p := isUserinfoChar) (l := t)]
    rw [heq]
  · simp at h
    exact Or.inl ⟨h.1.symm, h.2.symm⟩

theorem splitQuery_inv (r : Str) (oq : Option Str) (rest : Str)
    (h : splitQuery r = (oq, rest)) :
    (oq = none ∧ rest = r) ∨
      ∃ t, r = '?' :: t ∧ oq = some (t.takeWhile isQueryChar) ∧ rest = t.dropWhile isQueryChar := by
  unfold splitQuery at h
  split at h
  · rename_i t
    simp at h
    exact Or.inr ⟨t, rfl, h.1.symm, h.2.symm⟩
  · simp at h
    exact Or.inl ⟨h.1.symm, h.2.symm⟩

/-- Structural facts true of every value produced by `parse`. -/
structure ParseInv (v : URL) : Prop where
  scheme_chars : ∀ c ∈ v.scheme, isSchemeChar c = true
  scheme_lower : v.scheme.map lowerChar = v.scheme
  host_chars : ∀ c ∈ v.host, isHostChar c = true
  host_lower : v.host.map lowerChar = v.host
  ui_chars : ∀ c ∈ v.userinfo, isUserinfoChar c = true
  port_digits : v.port.all Char.isDigit = true
  path_chars : ∀ c ∈ v.path, isPathChar c = true
  query_chars : ∀ c ∈ v.query, isQueryChar c = true
  auth_path : v.userinfo ≠ [] ∨ v.host ≠ [] ∨ v.port ≠ [] →
    v.path = [] ∨ v.path.head? = some '/'

theorem parseInv_parse (s : Str) : ParseInv (parse s) := by
  rcases hs : splitScheme s with ⟨osch, r1⟩
  rcases ha : splitAuthority r1 with ⟨oauth, r2⟩
  have hsch_chars : ∀ c ∈ (osch.getD []).map lowerChar, isSchemeChar c = true := by
    intro c hc
    simp only [List.mem_map] at hc
    rcases hc with ⟨c0, hc0, rfl⟩
    rw [isSchemeChar_lowerChar]
    rcases osch with _ | sch
    · simp at hc0
    · simp at hc0
      rcases splitScheme_inv s sch r1 hs with ⟨hsch, _, _⟩
      exact List.mem_takeWhile_imp (hsch ▸ hc0)
  have hpath_chars : ∀ c ∈ r2.takeWhile isPathChar, isPathChar c = true :=
    fun _ hc => List.mem_takeWhile_imp hc
  have hquery_chars : ∀ c ∈ ((splitQuery (r2.dropWhile isPathChar)).1).getD [],
      isQueryChar c = true := by
    intro c hc
    rcases hq : splitQuery (r2.dropWhile isPathChar) with ⟨oq, rest⟩
    rw [hq] at hc
    rcases splitQuery_inv _ _ _ hq with ⟨hq1, _⟩ | ⟨t, _, hq1, _⟩
    · rw [hq1] at hc; simp at hc
    · rw [hq1] at hc
      simp at hc
      exact List.mem_takeWhile_imp hc
  have hpath_head : r2.takeWhile isPathChar = [] ∨
      (r2.takeWhile isPathChar).head? = some '/' ∨
      ∃ c t', r2 = c :: t' ∧ isHostChar c = true := by
    rcases hr2 : r2 with _ | ⟨c, t'⟩
    · exact Or.inl rfl
    · by_cases hc : isHostChar c = true
      · exact Or.inr (Or.inr ⟨c, t', rfl, hc⟩)
      · have hc3 : c = '/' ∨ c = '?' ∨ c = '#' := by
          rcases isHostChar_iff c with ⟨_, h2⟩
          by_contra hcon
          push_neg at hcon
          exact hc (h2 ⟨hcon.1, hcon.2.1, hcon.2.2⟩)
        rcases hc3 with rfl | rfl | rfl
        · right; left
          rw [List.takeWhile_cons_of_pos (by decide)]
          rfl
        · left
          rw [List.takeWhile_cons_of_neg (by decide)]
        · left
          rw [List.takeWhile_cons_of_neg (by decide)]
  rcases oauth with _ | ⟨oui, hp⟩
  · have hparse : parse s =
        { scheme := (osch.getD []).map lowerChar
          host := []
          path := r2.takeWhile isPathChar
          query := ((splitQuery (r2.dropWhile isPathChar)).1).getD []
          fragment := splitFragment (splitQuery (r2.dropWhile isPathChar)).2
          userinfo := []
          port := [] } := by
      simp only [parse, hs, ha]
      rfl
    rw [hparse]
    refine ⟨hsch_chars, map_lowerChar_idem _, ?_, rfl, ?_, rfl, hpath_chars, hquery_chars, ?_⟩
    · intro c hc; simp at hc
    · intro c hc; simp at hc
    · intro h
      simp at h
  · rcases splitAuthority_inv r1 oui hp r2 ha with ⟨t, ht, houi, hhp, hr2d⟩
    have hhp_chars : ∀ c ∈ hp, isHostChar c = true := by
      rw [hhp]; intro c hc; exact List.mem_takeWhile_imp hc
    have hparse : parse s =
        { scheme := (osch.getD []).map lowerChar
          host := (splitPort hp).1.map lowerChar
          path := r2.takeWhile isPathChar
          query := ((splitQuery (r2.dropWhile isPathChar)).1).getD []
          fragment := splitFragment (splitQuery (r2.dropWhile isPathChar)).2
          userinfo := oui.getD []
          port := (splitPort hp).2 } := by
      simp only [parse, hs, ha]
    rw [hparse]
    obtain ⟨hpd, hsplit⟩ := splitPort_cases hp
    have hhost_chars : ∀ c ∈ (splitPort hp).1, isHostChar c = true := by
      rcases hsplit with h | ⟨h, _⟩
      · intro c hc
        exact hhp_chars c (by rw [h]; exact List.mem_append_left _ hc)
      · intro c hc
        exact hhp_chars c (by rw [← h]; exact hc)
    have hport_digits : (splitPort hp).2.all Char.isDigit = true := by
      rcases hpd with h | h
      · rw [h]; rfl
      · exact h
    have hui_chars : ∀ c ∈ oui.getD [], isUserinfoChar c = true := by
      rcases ho : oui with _ | u
      · simp
      · intro c hc
        rw [ho] at houi
        rcases splitUserinfo_inv t (splitUserinfo t).1 (splitUserinfo t).2 rfl with
          ⟨h1, _⟩ | ⟨u', h1, h2, _⟩
        · rw [← houi] at h1; simp at h1
        · rw [← houi] at h1
          simp at h1
          simp at hc
          rw [h1, h2] at hc
          exact List.mem_takeWhile_imp hc
    refine ⟨hsch_chars, map_lowerChar_idem _, ?_, map_lowerChar_idem _, hui_chars,
      hport_digits, hpath_chars, hquery_chars, ?_⟩
    · intro c hc
      simp only [List.mem_map] at hc
      rcases hc with ⟨c0, hc0, rfl⟩
      rw [isHostChar_lowerChar]
      exact hhost_chars c0 hc0
    · intro _
      rcases hpath_head with h | h | ⟨c, t', heq, hc⟩
      · exact Or.inl h
      · exact Or.inr h
      · exfalso
        rw [hr2d] at heq
        rcases dropWhile_head_not isHostChar (splitUserinfo t).2 with h0 | ⟨c0, t0, h0, hc0⟩
        · rw [h0] at heq; exact absurd heq (by simp)
        · rw [h0] at heq
          injection heq with hch _
          rw [← hch] at hc
          exact absurd hc (by simp [hc0])

/- ### Re-parsing a serialized value -/

theorem authority_eq_nil_iff (v : URL) :
    v.authority = [] ↔ (v.host = [] ∧ v.userinfo = [] ∧ v.port = []) := by
  unfold URL.authority
  by_cases hu : v.userinfo = [] <;> by_cases hp : v.port = [] <;> simp [hu, hp]

theorem take_two_slash (p : Str) (h : p.take 2 = ['/', '/']) :
    ∃ rest, p = '/' :: '/' :: rest := by
  rcases p with _ | ⟨c1, _ | ⟨c2, rest⟩⟩ <;> simp at h
  exact ⟨rest, by rw [h.1, h.2]⟩

/-- The reconstructed query/fragment tail of `full_path`. -/
def qfTail (v : URL) : Str :=
  (if v.query = [] then [] else '?' :: v.query) ++
  (if v.fragment = [] then [] else '#' :: v.fragment)

theorem full_path_eq (v : URL) : v.full_path = v.path ++ qfTail v := by
  unfold URL.full_path qfTail
  rw [List.append_assoc]

theorem qfTail_head (v : URL) :
    qfTail v = [] ∨ (qfTail v).head? = some '?' ∨ (qfTail v).head? = some '#' := by
  unfold qfTail
  by_cases hq : v.query = [] <;> by_cases hf : v.fragment = [] <;> simp [hq, hf]

theorem reparse_qfTail (v : URL) (hq : ∀ c ∈ v.query, isQueryChar c = true) :
    ((splitQuery (qfTail v)).1).getD [] = v.query ∧
    splitFragment (splitQuery (qfTail v)).2 = v.fragment := by
  unfold qfTail
  by_cases hqe : v.query = []
  · by_cases hfe : v.fragment = []
    · simp [hqe, hfe, splitQuery, splitFragment]
    · rw [if_pos hqe, if_neg hfe]
      rw [List.nil_append, splitQuery_none _ (by simp), splitFragment_cons]
      simp [hqe]
  · by_cases hfe : v.fragment = []
    · rw [if_neg hqe, if_pos hfe, List.append_nil, splitQuery_cons]
      refine ⟨?_, ?_⟩
      · simp [List.takeWhile_eq_self_iff.mpr hq]
      · simp [List.dropWhile_eq_nil_iff.mpr hq, splitFragment, hfe]
    · rw [if_neg hqe, if_neg hfe, List.cons_append, splitQuery_cons]
      refine ⟨?_, ?_⟩
      · have hh : ¬ isQueryChar '#' = true := by decide
        simp [List.takeWhile_append_of_pos hq, List.takeWhile_cons_of_neg hh]
      · rw [List.dropWhile_append_of_pos hq, List.dropWhile_cons_of_neg (by decide),
          splitFragment_cons]

theorem reparse_fullpath (v : URL) (hpath : ∀ c ∈ v.path, isPathChar c = true)
    (hq : ∀ c ∈ v.query, isQueryChar c = true) :
    v.full_path.takeWhile isPathChar = v.path ∧
    ((splitQuery (v.full_path.dropWhile isPathChar)).1).getD [] = v.query ∧
    splitFragment (splitQuery (v.full_path.dropWhile isPathChar)).2 = v.fragment := by
  have htail : (qfTail v).takeWhile isPathChar = [] ∧ (qfTail v).dropWhile isPathChar = qfTail v := by
    rcases qfTail_head v with h | h | h
    · rw [h]; exact ⟨rfl, rfl⟩
    · rcases hqf : qfTail v with _ | ⟨c, rest⟩
      · exact ⟨rfl, rfl⟩
      · rw [hqf] at h
        simp at h
        subst h
        exact ⟨List.takeWhile_cons_of_neg (by decide), List.dropWhile_cons_of_neg (by decide)⟩
    · rcases hqf : qfTail v with _ | ⟨c, rest⟩
      · exact ⟨rfl, rfl⟩
      · rw [hqf] at h
        simp at h
        subst h
        exact ⟨List.takeWhile_cons_of_neg (by decide), List.dropWhile_cons_of_neg (by decide)⟩
  rw [full_path_eq, List.takeWhile_append_of_pos hpath, List.dropWhile_append_of_pos hpath,
    htail.1, htail.2, List.append_nil]
  exact ⟨rfl, (reparse_qfTail v hq).1, (reparse_qfTail v hq).2⟩

theorem fullpath_head (v : URL) (hpf : v.path = [] ∨ v.path.head? = some '/') :
    v.full_path = [] ∨ v.full_path.head? = some '/' ∨
    v.full_path.head? = some '?' ∨ v.full_path.head? = some '#' := by
  rw [full_path_eq]
  rcases hpe : v.path with _ | ⟨c, rest⟩
  · rw [List.nil_append]
    rcases qfTail_head v with h | h | h
    · exact Or.inl h
    · exact Or.inr (Or.inr (Or.inl h))
    · exact Or.inr (Or.inr (Or.inr h))
  · rcases hpf with hp | hp
    · rw [hpe] at hp
      simp at hp
    · rw [hpe] at hp
      simp at hp
      subst hp
      exact Or.inr (Or.inl rfl)

theorem reparse_auth (v : URL)
    (hhost : ∀ c ∈ v.host, isHostChar c = true)
    (hui : ∀ c ∈ v.userinfo, isUserinfoChar c = true)
    (hport : v.port.all Char.isDigit = true)
    (hfp : v.full_path = [] ∨ v.full_path.head? = some '/' ∨
      v.full_path.head? = some '?' ∨ v.full_path.head? = some '#')
    (h1 : v.userinfo = [] → '@' ∉ v.host)
    (h2 : v.port = [] → splitPort v.host = (v.host, [])) :
    ∃ ou : Option Str,
      splitUserinfo (v.authority ++ v.full_path) =
        (ou, (v.host ++ (if v.port = [] then [] else ':' :: v.port)) ++ v.full_path) ∧
      ou.getD [] = v.userinfo ∧
      ((v.host ++ (if v.port = [] then [] else ':' :: v.port)) ++ v.full_path).takeWhile isHostChar
        = v.host ++ (if v.port = [] then [] else ':' :: v.port) ∧
      ((v.host ++ (if v.port = [] then [] else ':' :: v.port)) ++ v.full_path).dropWhile isHostChar
        = v.full_path ∧
      splitPort (v.host ++ (if v.port = [] then [] else ':' :: v.port)) = (v.host, v.port) := by
  have hhp_chars : ∀ c ∈ v.host ++ (if v.port = [] then [] else ':' :: v.port),
      isHostChar c = true := by
    intro c hc
    rcases List.mem_append.mp hc with h | h
    · exact hhost c h
    · by_cases hpe : v.port = []
      · rw [if_pos hpe] at h; simp at h
      · rw [if_neg hpe] at h
        rcases List.mem_cons.mp h with rfl | h
        · decide
        · exact isHostChar_of_digit c (List.all_eq_true.mp hport c h)
  have hfp_host : v.full_path.takeWhile isHostChar = [] ∧
      v.full_path.dropWhile isHostChar = v.full_path := by
    rcases hfpe : v.full_path with _ | ⟨c, rest⟩
    · exact ⟨rfl, rfl⟩
    · rcases hfp with h | h | h | h <;> rw [hfpe] at h <;> simp at h <;> subst h <;>
        exact ⟨List.takeWhile_cons_of_neg (by decide), List.dropWhile_cons_of_neg (by decide)⟩
  have htake : ((v.host ++ (if v.port = [] then [] else ':' :: v.port)) ++ v.full_path).takeWhile isHostChar
      = v.host ++ (if v.port = [] then [] else ':' :: v.port) := by
    rw [List.takeWhile_append_of_pos hhp_chars, hfp_host.1, List.append_nil]
  have hdrop : ((v.host ++ (if v.port = [] then [] else ':' :: v.port)) ++ v.full_path).dropWhile isHostChar
      = v.full_path := by
    rw [List.dropWhile_append_of_pos hhp_chars, hfp_host.2]
  have hsp : splitPort (v.host ++ (if v.port = [] then [] else ':' :: v.port)) = (v.host, v.port) := by
    by_cases hpe : v.port = []
    · rw [if_pos hpe, List.append_nil, h2 hpe, hpe]
    · rw [if_neg hpe]
      exact splitPort_append_digits _ _ hport
  by_cases hue : v.userinfo = []
  · have hauth : v.authority = v.host ++ (if v.port = [] then [] else ':' :: v.port) := by
      unfold URL.authority
      rw [if_pos hue]
    have hhp_ui : ∀ c ∈ v.host ++ (if v.port = [] then [] else ':' :: v.port),
        isUserinfoChar c = true := by
      intro c hc
      rcases List.mem_append.mp hc with h | h
      · have hh := hhost c h
        rw [isHostChar_iff] at hh
        rw [isUserinfoChar_iff]
        refine ⟨hh.1, hh.2.1, hh.2.2, ?_⟩
        intro he
        exact (h1 hue) (he ▸ h)
      · by_cases hpe : v.port = []
        · rw [if_pos hpe] at h; simp at h
        · rw [if_neg hpe] at h
          rcases List.mem_cons.mp h with rfl | h
          · decide
          · exact isUserinfoChar_of_digit c (List.all_eq_true.mp hport c h)
    have hfp_ui : (v.full_path.dropWhile isUserinfoChar).head? ≠ some '@' := by
      rcases hfpe : v.full_path with _ | ⟨c, rest⟩
      · simp
      · rcases hfp with h | h | h | h <;> rw [hfpe] at h <;> simp at h <;> subst h <;>
          · rw [List.dropWhile_cons_of_neg (by decide)]
            simp
    refine ⟨none, ?_, by rw [hue]; rfl, htake, hdrop, hsp⟩
    rw [hauth]
    apply splitUserinfo_none
    rw [List.dropWhile_append_of_pos hhp_ui]
    exact hfp_ui
  · have hauth : v.authority = v.userinfo ++ '@' ::
        (v.host ++ (if v.port = [] then [] else ':' :: v.port)) := by
      unfold URL.authority
      rw [if_neg hue]
    refine ⟨some v.userinfo, ?_, rfl, htake, hdrop, hsp⟩
    rw [hauth, List.append_assoc, List.cons_append]
    exact splitUserinfo_of _ _ hui

theorem dropWhile_scheme_no_colon : ∀ p : Str, (∀ c ∈ p, isPathChar c = true) →
    ':' ∉ p.takeWhile (fun c => !(c == '/')) →
    ∀ qf : Str, (qf = [] ∨ qf.head? = some '?' ∨ qf.head? = some '#') →
    ((p ++ qf).dropWhile isSchemeChar).head? ≠ some ':'
| [], _, _, qf, hqf => by
  rw [List.nil_append]
  rcases hq : qf with _ | ⟨c, t⟩
  · simp
  · rcases hqf with h | h | h <;> rw [hq] at h <;> simp at h <;> subst h <;>
      · rw [List.dropWhile_cons_of_neg (by decide)]
        simp
| c :: p', hp, hcol, qf, hqf => by
  by_cases hc : c = '/'
  · subst hc
    rw [List.cons_append, List.dropWhile_cons_of_neg (by decide)]
    simp
  · by_cases hcc : c = ':'
    · exfalso
      apply hcol
      subst hcc
      rw [List.takeWhile_cons_of_pos (by decide)]
      exact List.mem_cons_self _ _
    · have hsc : isSchemeChar c = true := by
        rw [isSchemeChar_iff]
        have hpc := hp c (List.mem_cons_self c p')
        rw [isPathChar_iff] at hpc
        exact ⟨hcc, hc, hpc.1, hpc.2⟩
      rw [List.cons_append, List.dropWhile_cons_of_pos hsc]
      refine dropWhile_scheme_no_colon p' (fun d hd => hp d (List.mem_cons_of_mem _ hd)) ?_ qf hqf
      intro hmem
      apply hcol
      rw [List.takeWhile_cons_of_pos (by simp [hc])]
      exact List.mem_cons_of_mem _ hmem

theorem fullpath_not_slashslash (v : URL) (hq2 : v.path.take 2 ≠ ['/', '/']) :
    ∀ t, v.full_path ≠ '/' :: '/' :: t := by
  intro t ht
  rw [full_path_eq] at ht
  rcases hpe : v.path with _ | ⟨c1, _ | ⟨c2, r⟩⟩
  · rw [hpe] at ht
    rw [List.nil_append] at ht
    rcases qfTail_head v with h | h | h <;> rw [ht] at h <;> simp at h
  · rw [hpe] at ht
    simp at ht
    rcases ht with ⟨_, ht⟩
    rcases qfTail_head v with h | h | h <;> rw [ht] at h <;> simp at h
  · rw [hpe] at ht
    simp at ht
    apply hq2
    rw [hpe, ht.1, ht.2.1]
    rfl

theorem reparse_serialized (v : URL) (inv : ParseInv v)
    (h1 : v.userinfo = [] → '@' ∉ v.host)
    (h2 : v.port = [] → splitPort v.host = (v.host, []))
    (h3 : v.scheme = [] → v.host = [] → v.userinfo = [] → v.port = [] →
      ':' ∉ v.path.takeWhile (fun c => !(c == '/'))) :
    parse v.as_string = v := by
  obtain ⟨hfpt, hfpq, hfpf⟩ := reparse_fullpath v inv.path_chars inv.query_chars
  by_cases hauth : v.authority = []
  · obtain ⟨hh, hu, hp⟩ := (authority_eq_nil_iff v).mp hauth
    by_cases h2s : v.path.take 2 = ['/', '/']
    · -- no authority text, but the path starts with two slashes
      obtain ⟨rest, hrest⟩ := take_two_slash v.path h2s
      have hfp2 : ∃ t2, v.full_path = '/' :: '/' :: t2 := by
        rw [full_path_eq, hrest]
        exact ⟨rest ++ qfTail v, rfl⟩
      obtain ⟨t2, ht2⟩ := hfp2
      have hsu : splitUserinfo v.full_path = (none, v.full_path) := by
        apply splitUserinfo_none
        rw [ht2, List.dropWhile_cons_of_neg (by decide)]
        simp
      have htk : v.full_path.takeWhile isHostChar = [] := by
        rw [ht2]
        exact List.takeWhile_cons_of_neg (by decide)
      have hdp : v.full_path.dropWhile isHostChar = v.full_path := by
        rw [ht2]
        exact List.dropWhile_cons_of_neg (by decide)
      by_cases hs : v.scheme = []
      · have hstr : v.as_string = '/' :: '/' :: v.full_path := by
          simp only [URL.as_string]
          rw [if_neg (not_not_intro hauth), if_pos h2s, if_neg (not_not_intro hs),
            if_neg (by simp)]
          rfl
        rw [hstr]
        have hss : splitScheme ('/' :: '/' :: v.full_path) = (none, '/' :: '/' :: v.full_path) :=
          splitScheme_none _ (by rw [List.dropWhile_cons_of_neg (by decide)]; simp)
        simp only [parse, hss, splitAuthority_cons, hsu, htk, hdp, hfpt, hfpq, hfpf]
        rw [splitPort_no_colon [] (by simp)]
        simp only [List.map_nil, Option.getD_none]
        conv_rhs => rw [show v = URL.mk v.scheme v.host v.path v.query v.fragment v.userinfo v.port from rfl]
        simp [URL.mk.injEq, hs, hh, hu, hp]
      · have hstr : v.as_string = v.scheme ++ ':' :: ('/' :: '/' :: v.full_path) := by
          simp only [URL.as_string]
          rw [if_neg (not_not_intro hauth), if_pos h2s, if_pos hs]
          simp [List.append_assoc]
        rw [hstr]
        have hss := splitScheme_of v.scheme ('/' :: '/' :: v.full_path) hs inv.scheme_chars
        simp only [parse, hss, splitAuthority_cons, hsu, htk, hdp, hfpt, hfpq, hfpf]
        rw [splitPort_no_colon [] (by simp)]
        simp only [List.map_nil, Option.getD_some]
        rw [inv.scheme_lower]
        conv_rhs => rw [show v = URL.mk v.scheme v.host v.path v.query v.fragment v.userinfo v.port from rfl]
        simp [URL.mk.injEq, hh, hu, hp]
    · -- no authority text and the path does not start with two slashes
      have hsa : splitAuthority v.full_path = (none, v.full_path) :=
        splitAuthority_none _ (fullpath_not_slashslash v h2s)
      by_cases hs : v.scheme = []
      · have hcol := h3 hs hh hu hp
        have hstr : v.as_string = v.full_path := by
          simp only [URL.as_string]
          rw [if_neg (not_not_intro hauth), if_neg h2s, if_neg (not_not_intro hs),
            if_neg (by simp [hcol])]
          rfl
        rw [hstr]
        have hss : splitScheme v.full_path = (none, v.full_path) := by
          apply splitScheme_none
          rw [full_path_eq]
          exact dropWhile_scheme_no_colon v.path inv.path_chars hcol (qfTail v) (qfTail_head v)
        simp only [parse, hss, hsa, hfpt, hfpq, hfpf]
        rw [splitPort_no_colon [] (by simp)]
        simp only [List.map_nil, Option.getD_none]
        conv_rhs => rw [show v = URL.mk v.scheme v.host v.path v.query v.fragment v.userinfo v.port from rfl]
        simp [URL.mk.injEq, hs, hh, hu, hp]
      · have hstr : v.as_string = v.scheme ++ ':' :: v.full_path := by
          simp only [URL.as_string]
          rw [if_neg (not_not_intro hauth), if_neg h2s, if_pos hs]
          simp
        rw [hstr]
        have hss := splitScheme_of v.scheme v.full_path hs inv.scheme_chars
        simp only [parse, hss, hsa, hfpt, hfpq, hfpf]
        rw [splitPort_no_colon [] (by simp)]
        simp only [List.map_nil, Option.getD_some]
        rw [inv.scheme_lower]
        conv_rhs => rw [show v = URL.mk v.scheme v.host v.path v.query v.fragment v.userinfo v.port from rfl]
        simp [URL.mk.injEq, hh, hu, hp]
  · -- an authority is serialized
    have hd : v.userinfo ≠ [] ∨ v.host ≠ [] ∨ v.port ≠ [] := by
      by_contra hcon
      push_neg at hcon
      exact hauth ((authority_eq_nil_iff v).mpr ⟨hcon.2.1, hcon.1, hcon.2.2⟩)
    have hfp4 := fullpath_head v (inv.auth_path hd)
    obtain ⟨ou, hsu, hou, htake, hdrop, hsp⟩ :=
      reparse_auth v inv.host_chars inv.ui_chars inv.port_digits hfp4 h1 h2
    by_cases hs : v.scheme = []
    · have hstr : v.as_string = '/' :: '/' :: (v.authority ++ v.full_path) := by
        simp only [URL.as_string]
        rw [if_pos hauth, if_neg (not_not_intro hs), if_neg (by simp)]
        rfl
      rw [hstr]
      have hss : splitScheme ('/' :: '/' :: (v.authority ++ v.full_path)) =
          (none, '/' :: '/' :: (v.authority ++ v.full_path)) :=
        splitScheme_none _ (by rw [List.dropWhile_cons_of_neg (by decide)]; simp)
      simp only [parse, hss, splitAuthority_cons, hsu, htake, hdrop, hsp, hfpt, hfpq, hfpf,
        hou, inv.host_lower]
      simp only [List.map_nil, Option.getD_none]
      rw [← hs]
    · have hstr : v.as_string = v.scheme ++ ':' :: ('/' :: '/' :: (v.authority ++ v.full_path)) := by
        simp only [URL.as_string]
        rw [if_pos hauth, if_pos hs]
        simp [List.append_assoc]
      rw [hstr]
      have hss := splitScheme_of v.scheme ('/' :: '/' :: (v.authority ++ v.full_path)) hs
        inv.scheme_chars
      simp only [parse, hss, splitAuthority_cons, hsu, htake, hdrop, hsp, hfpt, hfpq, hfpf,
        hou, inv.host_lower]
      simp only [Option.getD_some]
      rw [inv.scheme_lower]

/- ### Claims -/

/-- Claim C1, counterexample: the round-trip fails as stated. For the
    parsed value of `//a::` the host is `a:` with empty port; it
    serializes to `//a:`, which re-parses with host `a`. -/
theorem c1_round_trip_counterexample :
    parse ((parse ("//a::".data)).as_string) ≠ parse ("//a::".data) := by decide

/-- Claim C1, amended: for every parsed value `v = parse s`, re-parsing
    the serialization gives back `v`, provided that (1) when the userinfo
    is empty the host contains no `@`, (2) when the port is empty the
    host would not shed a port on re-splitting at its last colon, and
    (3) when scheme and authority are all absent the first path segment
    contains no `:`. -/
theorem c1_round_trip (s : Str)
    (h1 : (parse s).userinfo = [] → '@' ∉ (parse s).host)
    (h2 : (parse s).port = [] → splitPort (parse s).host = ((parse s).host, []))
    (h3 : (parse s).scheme = [] → (parse s).host = [] → (parse s).userinfo = [] →
      (parse s).port = [] → ':' ∉ (parse s).path.takeWhile (fun c => !(c == '/'))) :
    parse ((parse s).as_string) = parse s :=
  reparse_serialized (parse s) (parseInv_parse s) h1 h2 h3

/-- Claim C1, witness: the amended round-trip at a concrete URL. -/
theorem c1_round_trip_witness :
    parse ((parse ("http://u@Ex.com:80/p/q?x#y".data)).as_string) =
      parse ("http://u@Ex.com:80/p/q?x#y".data) :=
  c1_round_trip ("http://u@Ex.com:80/p/q?x#y".data) (by decide) (by decide) (by decide)

/-- Claim C4: the four RFC 3986 section 5.4 resolution examples against
    the base `http://a/b/c/d;p?q`. -/
theorem c4_resolution_examples :
    ((parse ("http://a/b/c/d;p?q".data)).add (parse ("g".data))).as_string
      = ("http://a/b/c/g".data) ∧
    ((parse ("http://a/b/c/d;p?q".data)).add (parse ("../g".data))).as_string
      = ("http://a/b/g".data) ∧
    ((parse ("http://a/b/c/d;p?q".data)).add (parse ("?y".data))).as_string
      = ("http://a/b/c/d;p?y".data) ∧
    ((parse ("http://a/b/c/d;p?q".data)).add (parse ("#s".data))).as_string
      = ("http://a/b/c/d;p?q#s".data) :=
  ⟨by decide, by decide, by decide, by decide⟩

/-- Claim C3, counterexample: `//2001:db8::1/` does not keep the whole
    text as host; the suffix `1` after the last colon is all digits, so
    it is split off as the port. -/
theorem c3_host_port_counterexample :
    ¬ ((parse ("//2001:db8::1/".data)).host = ("2001:db8::1".data) ∧
       (parse ("//2001:db8::1/".data)).port = []) := by decide

/-- Claim C3, amended: the authority text is split at its last `:`; the
    suffix becomes the port exactly when it is empty or entirely digits,
    otherwise the whole text stays in the host; `//host:1234/` and
    `//[::1]:80/` behave as claimed, while `//2001:db8::1/` yields host
    `2001:db8:` and port `1`. -/
theorem c3_host_port :
    (∀ b suf : Str, (∀ c ∈ b ++ ':' :: suf, isUserinfoChar c = true) → ':' ∉ suf →
      ((suf = [] ∨ suf.all Char.isDigit = true →
         (parse ('/' :: '/' :: (b ++ ':' :: suf))).host = b.map lowerChar ∧
         (parse ('/' :: '/' :: (b ++ ':' :: suf))).port = suf) ∧
       (¬ (suf = [] ∨ suf.all Char.isDigit = true) →
         (parse ('/' :: '/' :: (b ++ ':' :: suf))).host = (b ++ ':' :: suf).map lowerChar ∧
         (parse ('/' :: '/' :: (b ++ ':' :: suf))).port = []))) ∧
    (parse ("//host:1234/".data)).host = ("host".data) ∧
    (parse ("//host:1234/".data)).port = ("1234".data) ∧
    (parse ("//[::1]:80/".data)).host = ("[::1]".data) ∧
    (parse ("//[::1]:80/".data)).port = ("80".data) ∧
    (parse ("//2001:db8::1/".data)).host = ("2001:db8:".data) ∧
    (parse ("//2001:db8::1/".data)).port = ("1".data) := by
  refine ⟨?_, by decide, by decide, by decide, by decide, by decide, by decide⟩
  intro b suf hchars hcol
  have hss : splitScheme ('/' :: '/' :: (b ++ ':' :: suf)) =
      (none, '/' :: '/' :: (b ++ ':' :: suf)) :=
    splitScheme_none _ (by rw [List.dropWhile_cons_of_neg (by decide)]; simp)
  have hsu : splitUserinfo (b ++ ':' :: suf) = (none, b ++ ':' :: suf) :=
    splitUserinfo_none _ (by rw [List.dropWhile_eq_nil_iff.mpr hchars]; simp)
  have hhostchars : ∀ c ∈ b ++ ':' :: suf, isHostChar c = true :=
    fun c hc => isHostChar_of_isUserinfoChar c (hchars c hc)
  have htk : (b ++ ':' :: suf).takeWhile isHostChar = b ++ ':' :: suf :=
    List.takeWhile_eq_self_iff.mpr hhostchars
  have hdp : (b ++ ':' :: suf).dropWhile isHostChar = [] :=
    List.dropWhile_eq_nil_iff.mpr hhostchars
  have hsl : splitLastOn ':' (b ++ ':' :: suf) = some (b, suf) :=
    splitLastOn_append ':' b suf hcol
  constructor
  · intro hdig
    have hsp : splitPort (b ++ ':' :: suf) = (b, suf) := by
      have hred : splitPort (b ++ ':' :: suf) =
          if suf = [] ∨ suf.all Char.isDigit = true then (b, suf)
          else (b ++ ':' :: suf, []) := by
        unfold splitPort
        rw [hsl]
      rw [hred, if_pos hdig]
    simp [parse, hss, splitAuthority_cons, hsu, htk, hdp, hsp]
  · intro hdig
    have hsp : splitPort (b ++ ':' :: suf) = (b ++ ':' :: suf, []) := by
      have hred : splitPort (b ++ ':' :: suf) =
          if suf = [] ∨ suf.all Char.isDigit = true then (b, suf)
          else (b ++ ':' :: suf, []) := by
        unfold splitPort
        rw [hsl]
      rw [hred, if_neg hdig]
    simp [parse, hss, splitAuthority_cons, hsu, htk, hdp, hsp]

/-- Claim C3, witness: the general host/port rule at a concrete input. -/
theorem c3_host_port_witness :
    (parse ("//ab:cd:99".data)).host = ("ab:cd".data) ∧
    (parse ("//ab:cd:99".data)).port = ("99".data) := by
  have he : ("//ab:cd:99".data) = '/' :: '/' :: (("ab:cd".data) ++ ':' :: ("99".data)) := by decide
  have h := (c3_host_port.1 ("ab:cd".data) ("99".data) (by decide) (by decide)).1
    (Or.inr (by decide))
  rw [he]
  exact ⟨by rw [h.1]; decide, h.2⟩

/-- Claim C7, counterexample: when the reference carries a scheme but no
    authority, the result's authority is the reference's empty one, not
    the base's. -/
theorem c7_resolve_scheme_counterexample :
    ((parse ("http://a/b".data)).add (parse ("g:h".data))).host ≠
      (parse ("http://a/b".data)).host := by decide

/-- Claim C7, amended: whenever `ref.scheme` is non-empty, the result of
    the resolution takes its scheme (lowercased) and all three authority
    components from `ref` itself — so an authority-less reference gives
    an authority-less result, never the base's authority. -/
theorem c7_resolve_scheme (base ref : URL) (h : ref.scheme ≠ []) :
    (base.add ref).scheme = ref.scheme.map lowerChar ∧
    (base.add ref).host = ref.host.map lowerChar ∧
    (base.add ref).userinfo = ref.userinfo ∧
    (base.add ref).port = ref.port := by
  unfold URL.add
  rw [if_pos h]
  exact ⟨rfl, rfl, rfl, rfl⟩

/-- Claim C7, witness: the amended resolution rule at a concrete input. -/
theorem c7_resolve_scheme_witness :
    ((parse ("http://a/b".data)).add (parse ("g:h".data))).scheme = ("g".data) ∧
    ((parse ("http://a/b".data)).add (parse ("g:h".data))).host = [] := by
  have h := c7_resolve_scheme (parse ("http://a/b".data)) (parse ("g:h".data)) (by decide)
  exact ⟨by rw [h.1]; decide, by rw [h.2.1]; decide⟩

/-- Claim C8, counterexample: in `//a@b@c` the userinfo is the text
    before the first `@`, not before the last. -/
theorem c8_userinfo_counterexample :
    (parse ("//a@b@c".data)).userinfo ≠ ("a@b".data) := by decide

/-- Claim C8, amended: within the authority the userinfo is the text
    before the first `@` (a run of chars not in `/?#@`), and the
    host:port text is everything after that first `@`. -/
theorem c8_userinfo_first_at (u r : Str)
    (hu : ∀ c ∈ u, isUserinfoChar c = true)
    (hr : ∀ c ∈ r, isHostChar c = true) :
    (parse ('/' :: '/' :: (u ++ '@' :: r))).userinfo = u ∧
    (parse ('/' :: '/' :: (u ++ '@' :: r))).host = (splitPort r).1.map lowerChar ∧
    (parse ('/' :: '/' :: (u ++ '@' :: r))).port = (splitPort r).2 := by
  have hss : splitScheme ('/' :: '/' :: (u ++ '@' :: r)) =
      (none, '/' :: '/' :: (u ++ '@' :: r)) :=
    splitScheme_none _ (by rw [List.dropWhile_cons_of_neg (by decide)]; simp)
  have hsu := splitUserinfo_of u r hu
  have htk : r.takeWhile isHostChar = r := List.takeWhile_eq_self_iff.mpr hr
  have hdp : r.dropWhile isHostChar = [] := List.dropWhile_eq_nil_iff.mpr hr
  simp [parse, hss, splitAuthority_cons, hsu, htk, hdp]

/-- Claim C8, witness: the first-`@` rule at `//a@b@c`. -/
theorem c8_userinfo_first_at_witness :
    (parse ("//a@b@c".data)).userinfo = ("a".data) := by
  have he : ("//a@b@c".data) = '/' :: '/' :: (("a".data) ++ '@' :: ("b@c".data)) := by decide
  have h := c8_userinfo_first_at ("a".data) ("b@c".data) (by decide) (by decide)
  rw [he]
  exact h.1

theorem cacheStep_len (c : Cache) (op : CacheOp)
    (h : c.entries.length ≤ cacheSize) :
    (cacheStep c op).entries.length ≤ cacheSize := by
  cases op with
  | parseOp u =>
    show (cachedParse c u).2.entries.length ≤ cacheSize
    unfold cachedParse
    rcases hl : cacheLookup c u with _ | v
    · show ((if cacheSize ≤ c.entries.length then [] else c.entries)
        ++ [(u, parse u)]).length ≤ cacheSize
      by_cases hf : cacheSize ≤ c.entries.length
      · rw [if_pos hf]
        simp only [List.nil_append, List.length_cons, List.length_nil, cacheSize]
        omega
      · rw [if_neg hf]
        simp only [List.length_append, List.length_cons, List.length_nil]
        simp only [cacheSize] at hf ⊢
        omega
    · show c.entries.length ≤ cacheSize
      exact h
  | buildOp a b d e f g hh =>
    show (cachedConstruct c a b d e f g hh).2.entries.length ≤ cacheSize
    exact h

theorem runCache_len (ops : List CacheOp) : ∀ c : Cache,
    c.entries.length ≤ cacheSize → (runCache c ops).entries.length ≤ cacheSize := by
  induction ops with
  | nil => exact fun c h => h
  | cons op ops ih =>
    intro c h
    exact ih _ (cacheStep_len c op h)

/-- Claim C9: the bounded parse cache never exceeds its capacity at any
    observation point; on a full miss the whole mapping is cleared and
    replaced by the single new entry, so every previously cached string
    becomes a miss; construction from explicit parts never touches the
    cache; and a miss is re-parsed. -/
theorem c9_cache_bound (ops : List CacheOp) :
    (runCache ⟨[]⟩ ops).entries.length ≤ cacheSize ∧
    (∀ (c : Cache) (a b d e f g h : Str), (cachedConstruct c a b d e f g h).2 = c) ∧
    (∀ (c : Cache) (u : Str), cacheLookup c u = none → cacheSize ≤ c.entries.length →
      (cachedParse c u).2.entries = [(u, parse u)]) ∧
    (∀ (c : Cache) (u u' : Str), cacheLookup c u = none → cacheSize ≤ c.entries.length →
      u' ≠ u → cacheLookup (cachedParse c u).2 u' = none) ∧
    (∀ (c : Cache) (u : Str), cacheLookup c u = none → (cachedParse c u).1 = parse u) := by
  have hclear : ∀ (c : Cache) (u : Str), cacheLookup c u = none →
      cacheSize ≤ c.entries.length → (cachedParse c u).2.entries = [(u, parse u)] := by
    intro c u hlk hlen
    unfold cachedParse
    rw [hlk]
    simp only [if_pos hlen]
    rfl
  refine ⟨runCache_len ops ⟨[]⟩ (by simp [cacheSize]), fun _ _ _ _ _ _ _ _ => rfl, hclear,
    ?_, ?_⟩
  · intro c u u' hlk hlen hne
    unfold cacheLookup
    rw [hclear c u hlk hlen]
    simp [List.find?, beq_eq_false_iff_ne.mpr hne.symm]
  · intro c u hlk
    unfold cachedParse
    rw [hlk]

/-- Claim C9, witness: a full 20-entry cache; looking up a fresh string
    clears it, after which the previously cached empty string misses. -/
theorem c9_cache_bound_witness :
    cacheLookup (cachedParse
      ⟨(List.range 20).map (fun i => (List.replicate i 'a', URL.mk [] [] [] [] [] [] []))⟩
      (List.replicate 20 'a')).2 [] = none ∧
    (runCache ⟨[]⟩ [CacheOp.parseOp ("x".data)]).entries.length ≤ cacheSize := by
  constructor
  · exact (c9_cache_bound []).2.2.2.1
      ⟨(List.range 20).map (fun i => (List.replicate i 'a', URL.mk [] [] [] [] [] [] []))⟩
      (List.replicate 20 'a') [] (by decide) (by decide) (by decide)
  · exact (c9_cache_bound [CacheOp.parseOp ("x".data)]).1

/-- Claim C10: `is_host_ipv4` holds exactly when the host does not start
    with `[` and splits on `.` into exactly four nonempty all-digit
    parts, each denoting an integer below 256; and `is_host_ip` holds
    exactly when `is_host_ipv4` does or the host is bracketed. -/
theorem c10_is_host_ip (v : URL) :
    (v.is_host_ipv4 = true ↔
      (v.host.head? ≠ some '[' ∧ (splitOnChar '.' v.host).length = 4 ∧
        ∀ p ∈ splitOnChar '.' v.host,
          p ≠ [] ∧ (∀ c ∈ p, c.isDigit = true) ∧ digitsToNat p < 256)) ∧
    (v.is_host_ip = true ↔
      (v.is_host_ipv4 = true ∨ (v.host.head? = some '[' ∧ v.host.getLast? = some ']'))) := by
  constructor
  · unfold URL.is_host_ipv4
    split
    · rename_i hbr
      simp [hbr]
    · rename_i hbr
      simp only [Bool.and_eq_true, decide_eq_true_eq, List.all_eq_true]
      constructor
      · rintro ⟨⟨hlen, hdig⟩, hval⟩
        refine ⟨hbr, hlen, fun p hp => ?_⟩
        obtain ⟨hne, hd⟩ := hdig p hp
        exact ⟨by simpa using hne, hd, by simpa using hval p hp⟩
      · rintro ⟨_, hlen, hall⟩
        refine ⟨⟨hlen, fun p hp => ?_⟩, fun p hp => by simpa using (hall p hp).2.2⟩
        exact ⟨by simpa using (hall p hp).1, (hall p hp).2.1⟩
  · unfold URL.is_host_ip
    split
    · rename_i h4
      simp [h4]
    · rename_i h4
      split
      · rename_i hbr
        simp [hbr]
      · rename_i hbr
        simp [h4, hbr]

/-- Claim C10, witness: a dotted-decimal host is recognized as IPv4. -/
theorem c10_is_host_ip_witness :
    (parse ("//127.0.0.1".data)).is_host_ipv4 = true :=
  (c10_is_host_ip (parse ("//127.0.0.1".data))).1.mpr
    ⟨by decide, by decide, by decide⟩

/-- Claim C6: `validate` checks scheme, userinfo, host, path, query in
    that order, raises the classified error of the first invalid
    component, never examines the fragment, and returns the same value
    unchanged on success; `ht!tp://x` fails with `InvalidScheme` and
    `http://x/y` validates. -/
theorem c6_validate (v : URL) :
    (validate v = .error .invalidScheme ↔
      (v.scheme ≠ [] ∧ matchScheme v.scheme = false)) ∧
    (validate v = .error .invalidUserinfo ↔
      (¬(v.scheme ≠ [] ∧ matchScheme v.scheme = false) ∧
       (v.userinfo ≠ [] ∧ matchUserinfo v.userinfo = false))) ∧
    (validate v = .error .invalidHost ↔
      (¬(v.scheme ≠ [] ∧ matchScheme v.scheme = false) ∧
       ¬(v.userinfo ≠ [] ∧ matchUserinfo v.userinfo = false) ∧
       (v.host ≠ [] ∧ validHostCheck v.host = false))) ∧
    (validate v = .error .invalidPath ↔
      (¬(v.scheme ≠ [] ∧ matchScheme v.scheme = false) ∧
       ¬(v.userinfo ≠ [] ∧ matchUserinfo v.userinfo = false) ∧
       ¬(v.host ≠ [] ∧ validHostCheck v.host = false) ∧
       (v.path ≠ [] ∧ matchPath v.path = false))) ∧
    (validate v = .error .invalidQuery ↔
      (¬(v.scheme ≠ [] ∧ matchScheme v.scheme = false) ∧
       ¬(v.userinfo ≠ [] ∧ matchUserinfo v.userinfo = false) ∧
       ¬(v.host ≠ [] ∧ validHostCheck v.host = false) ∧
       ¬(v.path ≠ [] ∧ matchPath v.path = false) ∧
       (v.query ≠ [] ∧ matchQuery v.query = false))) ∧
    (validate v = .ok v ↔
      (¬(v.scheme ≠ [] ∧ matchScheme v.scheme = false) ∧
       ¬(v.userinfo ≠ [] ∧ matchUserinfo v.userinfo = false) ∧
       ¬(v.host ≠ [] ∧ validHostCheck v.host = false) ∧
       ¬(v.path ≠ [] ∧ matchPath v.path = false) ∧
       ¬(v.query ≠ [] ∧ matchQuery v.query = false))) ∧
    (∀ u, validate v = .ok u → u = v) ∧
    (∀ f : Str, validate { v with fragment := f } =
      (validate v).map (fun u => { u with fragment := f })) ∧
    validate (parse ("ht!tp://x".data)) = .error .invalidScheme ∧
    validate (parse ("http://x/y".data)) = .ok (parse ("http://x/y".data)) := by
  have hfrag : ∀ f : Str, validate { v with fragment := f } =
      (validate v).map (fun u => { u with fragment := f }) := by
    intro f
    unfold validate
    split_ifs <;> rfl
  refine ⟨?_, ?_, ?_, ?_, ?_, ?_, ?_, hfrag, by decide, by decide⟩ <;>
    unfold validate <;> split_ifs with h1 h2 h3 h4 h5 <;> simp_all

/-- Claim C6, witness: the first-error rule applied at `ht!tp://x`. -/
theorem c6_validate_witness :
    validate (parse ("ht!tp://x".data)) = .error .invalidScheme :=
  (c6_validate (parse ("ht!tp://x".data))).1.mpr ⟨by decide, by decide⟩

theorem not_isPathChar (c : Char) (hc : isPathChar c = false) : c = '?' ∨ c = '#' := by
  by_contra hcon
  push_neg at hcon
  rw [← Bool.not_eq_true, isPathChar_iff] at hc
  exact hc ⟨hcon.1, hcon.2⟩

theorem not_isQueryChar (c : Char) (hc : isQueryChar c = false) : c = '#' := by
  by_contra hcon
  rw [← Bool.not_eq_true, isQueryChar_iff] at hc
  exact hc hcon

theorem splitScheme_none_inv (s r : Str) (h : splitScheme s = (none, r)) : r = s := by
  unfold splitScheme at h
  split at h
  · split at h
    · simp at h
      exact h.symm
    · simp at h
  · simp at h
    exact h.symm

theorem splitAuthority_none_inv (r r2 : Str) (h : splitAuthority r = (none, r2)) : r2 = r := by
  unfold splitAuthority at h
  split at h
  · simp at h
  · simp at h
    exact h.symm

theorem tail_decomp (r2 : Str) : ∃ (q : Option Str) (frag : Str) (fd : Bool),
    r2 = r2.takeWhile isPathChar ++ q.elim [] (fun x => '?' :: x) ++
      (if fd then '#' :: frag else frag) ∧
    (fd = false → frag = []) ∧
    (splitQuery (r2.dropWhile isPathChar)).1 = q ∧
    splitFragment (splitQuery (r2.dropWhile isPathChar)).2 = frag := by
  rcases hq : splitQuery (r2.dropWhile isPathChar) with ⟨oq, rest⟩
  rcases splitQuery_inv _ _ _ hq with ⟨hq1, hq2⟩ | ⟨t, ht, hq1, hq2⟩
  · rcases dropWhile_head_not isPathChar r2 with hr | ⟨c, t0, hr, hc⟩
    · refine ⟨none, [], false, ?_, fun _ => rfl, by simp [hq1], ?_⟩
      · conv_lhs => rw [← List.takeWhile_append_dropWhile (p := isPathChar) (l := r2)]
        rw [hr]
        simp
      · show splitFragment rest = _
        rw [hq2, hr]
        rfl
    · rcases not_isPathChar c hc with rfl | rfl
      · exfalso
        rw [hr, splitQuery_cons, hq1] at hq
        simp at hq
      · refine ⟨none, t0, true, ?_, by simp, by simp [hq1], ?_⟩
        · conv_lhs => rw [← List.takeWhile_append_dropWhile (p := isPathChar) (l := r2)]
          rw [hr]
          simp
        · show splitFragment rest = _
          rw [hq2, hr]
          rfl
  · rcases dropWhile_head_not isQueryChar t with hr | ⟨c, t0, hr, hc⟩
    · refine ⟨some (t.takeWhile isQueryChar), [], false, ?_, fun _ => rfl,
        by simp [hq1], ?_⟩
      · conv_lhs => rw [← List.takeWhile_append_dropWhile (p := isPathChar) (l := r2)]
        rw [ht]
        have hteq : t = t.takeWhile isQueryChar := by
          conv_lhs => rw [← List.takeWhile_append_dropWhile (p := isQueryChar) (l := t)]
          rw [hr, List.append_nil]
        conv_lhs => rw [hteq]
        simp
      · show splitFragment rest = _
        rw [hq2, hr]
        rfl
    · have hc3 := not_isQueryChar c hc
      subst hc3
      refine ⟨some (t.takeWhile isQueryChar), t0, true, ?_, by simp, by simp [hq1], ?_⟩
      · conv_lhs => rw [← List.takeWhile_append_dropWhile (p := isPathChar) (l := r2)]
        rw [ht]
        conv_lhs => rw [← List.takeWhile_append_dropWhile (p := isQueryChar) (l := t)]
        rw [hr]
        simp
      · show splitFragment rest = _
        rw [hq2, hr]
        rfl

/-- Claim C2: parsing never fails: every input string, the empty string
    included, decomposes into the seven raw substrings (with their five
    optional delimiters), and `parse` returns exactly the URI Value made
    of those substrings after host/port disambiguation and lowercasing. -/
theorem c2_parse_total (s : Str) :
    ∃ (sch ui q : Option Str) (hp path frag : Str) (auth fd : Bool),
      s = sch.elim [] (fun x => x ++ [':']) ++
          (if auth then '/' :: '/' :: (ui.elim [] (fun x => x ++ ['@']) ++ hp) else []) ++
          path ++ q.elim [] (fun x => '?' :: x) ++ (if fd then '#' :: frag else frag) ∧
      (auth = false → ui = none ∧ hp = []) ∧
      (fd = false → frag = []) ∧
      parse s = { scheme := (sch.getD []).map lowerChar,
                  host := (splitPort hp).1.map lowerChar,
                  path := path, query := q.getD [], fragment := frag,
                  userinfo := ui.getD [], port := (splitPort hp).2 } := by
  rcases hs : splitScheme s with ⟨osch, r1⟩
  rcases ha : splitAuthority r1 with ⟨oauth, r2⟩
  obtain ⟨q, frag, fd, htail, hfd, hq1, hfr⟩ := tail_decomp r2
  have hs_dec : s = osch.elim [] (fun x => x ++ [':']) ++ r1 := by
    rcases osch with _ | sch
    · simp [splitScheme_none_inv s r1 hs]
    · obtain ⟨_, h2, _⟩ := splitScheme_inv s sch r1 hs
      simp only [Option.elim]
      rw [h2]
      simp
  rcases oauth with _ | ⟨oui, hp'⟩
  · have hr2 : r2 = r1 := splitAuthority_none_inv r1 r2 ha
    refine ⟨osch, none, q, [], r2.takeWhile isPathChar, frag, false, fd, ?_,
      fun _ => ⟨rfl, rfl⟩, hfd, ?_⟩
    · rw [hs_dec, ← hr2]
      conv_lhs => rw [htail]
      simp [List.append_assoc]
    · simp only [parse, hs, ha, hq1, hfr]
      rfl
  · obtain ⟨t, ht, houi, hhp, hr2d⟩ := splitAuthority_inv r1 oui hp' r2 ha
    have hw : (splitUserinfo t).2 = hp' ++ r2 := by
      rw [hhp, hr2d]
      exact (List.takeWhile_append_dropWhile _ _).symm
    rcases splitUserinfo_inv t (splitUserinfo t).1 (splitUserinfo t).2 rfl with
      ⟨h1, h2⟩ | ⟨u, h1, h2, h3⟩
    · refine ⟨osch, none, q, hp', r2.takeWhile isPathChar, frag, true, fd, ?_,
        by simp, hfd, ?_⟩
      · rw [hs_dec, ht]
        have htp : t = hp' ++ r2 := by
          rw [← hw, h2]
        rw [htp]
        conv_lhs => rw [htail]
        simp [List.append_assoc]
      · have houn : oui = none := by rw [houi, h1]
        simp only [parse, hs, ha, hq1, hfr, houn]
    · refine ⟨osch, some u, q, hp', r2.takeWhile isPathChar, frag, true, fd, ?_,
        by simp, hfd, ?_⟩
      · rw [hs_dec, ht]
        have htp : t = (u ++ ['@']) ++ (hp' ++ r2) := by
          rw [h3, hw]
          simp
        rw [htp]
        conv_lhs => rw [htail]
        simp [List.append_assoc]
      · have hous : oui = some u := by rw [houi, h1]
        simp only [parse, hs, ha, hq1, hfr, hous]

/- ### Dot-segment removal -/

theorem splitOnChar_cons_eq (d : Char) (r : Str) :
    splitOnChar d (d :: r) = [] :: splitOnChar d r := by
  simp [splitOnChar]

theorem splitOnChar_cons_of_ne (d c : Char) (r : Str) (hc : ¬ c = d)
    (s0 : Str) (rest : List Str) (h : splitOnChar d r = s0 :: rest) :
    splitOnChar d (c :: r) = (c :: s0) :: rest := by
  simp [splitOnChar, hc, h]

theorem splitOnChar_ne_nil (d : Char) : ∀ s : Str, splitOnChar d s ≠ []
| [] => by simp [splitOnChar]
| c :: r => by
  by_cases hc : c = d
  · subst hc
    rw [splitOnChar_cons_eq]
    simp
  · obtain ⟨a, b, hab⟩ := List.exists_cons_of_ne_nil (splitOnChar_ne_nil d r)
    rw [splitOnChar_cons_of_ne d c r hc a b hab]
    simp

theorem splitOnChar_append (d : Char) : ∀ xs ys : Str,
    splitOnChar d (xs ++ d :: ys) = splitOnChar d xs ++ splitOnChar d ys
| [], ys => by
  rw [List.nil_append, splitOnChar_cons_eq]
  rfl
| c :: xs, ys => by
  by_cases hc : c = d
  · subst hc
    rw [List.cons_append, splitOnChar_cons_eq, splitOnChar_append c xs ys,
      splitOnChar_cons_eq]
    rfl
  · obtain ⟨a, b, hab⟩ := List.exists_cons_of_ne_nil (splitOnChar_ne_nil d xs)
    have hrec := splitOnChar_append d xs ys
    rw [hab] at hrec
    obtain ⟨s0, rest, hsp⟩ := List.exists_cons_of_ne_nil (splitOnChar_ne_nil d (xs ++ d :: ys))
    rw [hsp] at hrec
    rw [List.cons_append] at hrec ⊢
    injection hrec with he1 he2
    rw [splitOnChar_cons_of_ne d c _ hc s0 rest hsp,
      splitOnChar_cons_of_ne d c xs hc a b hab]
    rw [he1, he2]
    rfl

theorem splitOnChar_no_delim (d : Char) : ∀ s : Str, d ∉ s → splitOnChar d s = [s]
| [], _ => rfl
| c :: r, h => by
  have hc : ¬ c = d := by
    intro he
    exact h (by rw [← he]; exact List.mem_cons_self c r)
  have hr := splitOnChar_no_delim d r (fun hm => h (List.mem_cons_of_mem _ hm))
  exact splitOnChar_cons_of_ne d c r hc r [] hr

theorem mem_splitOnChar_no_delim (d : Char) : ∀ (s : Str) (seg : Str),
    seg ∈ splitOnChar d s → d ∉ seg
| [], seg, h => by
  simp [splitOnChar] at h
  subst h
  simp
| c :: r, seg, h => by
  by_cases hc : c = d
  · subst hc
    rw [splitOnChar_cons_eq] at h
    rcases List.mem_cons.mp h with rfl | h
    · simp
    · exact mem_splitOnChar_no_delim c r seg h
  · obtain ⟨a, b, hab⟩ := List.exists_cons_of_ne_nil (splitOnChar_ne_nil d r)
    rw [splitOnChar_cons_of_ne d c r hc a b hab] at h
    rcases List.mem_cons.mp h with rfl | h
    · have ha := mem_splitOnChar_no_delim d r a (by rw [hab]; exact List.mem_cons_self _ _)
      intro hd
      rcases List.mem_cons.mp hd with he | hd2
      · exact hc he.symm
      · exact ha hd2
    · exact mem_splitOnChar_no_delim d r seg (by rw [hab]; exact List.mem_cons_of_mem _ h)

theorem joinSlash_splitOnChar : ∀ q : Str, joinSlash (splitOnChar '/' q) = q
| [] => rfl
| c :: r => by
  by_cases hc : c = '/'
  · subst hc
    rw [splitOnChar_cons_eq]
    obtain ⟨a, b, hab⟩ := List.exists_cons_of_ne_nil (splitOnChar_ne_nil '/' r)
    rw [hab]
    show ([] : Str) ++ '/' :: joinSlash (a :: b) = '/' :: r
    rw [List.nil_append, ← hab, joinSlash_splitOnChar r]
  · obtain ⟨a, b, hab⟩ := List.exists_cons_of_ne_nil (splitOnChar_ne_nil '/' r)
    rw [splitOnChar_cons_of_ne '/' c r hc a b hab]
    have hjr := joinSlash_splitOnChar r
    rw [hab] at hjr
    rcases b with _ | ⟨b0, bs⟩
    · show c :: a = c :: r
      rw [show joinSlash [a] = a from rfl] at hjr
      rw [hjr]
    · show (c :: a) ++ '/' :: joinSlash (b0 :: bs) = c :: r
      rw [show joinSlash (a :: b0 :: bs) = a ++ '/' :: joinSlash (b0 :: bs) from rfl] at hjr
      rw [List.cons_append, hjr]

theorem splitOnChar_joinSlash : ∀ segs : List Str, segs ≠ [] →
    (∀ s ∈ segs, '/' ∉ s) → splitOnChar '/' (joinSlash segs) = segs
| [], h, _ => absurd rfl h
| [s], _, h => by
  show splitOnChar '/' s = [s]
  exact splitOnChar_no_delim '/' s (h s (List.mem_cons_self _ _))
| s :: s2 :: rest, _, h => by
  show splitOnChar '/' (s ++ '/' :: joinSlash (s2 :: rest)) = s :: s2 :: rest
  rw [splitOnChar_append, splitOnChar_no_delim '/' s (h s (List.mem_cons_self _ _)),
    splitOnChar_joinSlash (s2 :: rest) (by simp) (fun x hx => h x (List.mem_cons_of_mem _ hx))]
  rfl

theorem foldl_rds_of_dotfree : ∀ (segs : List Str) (acc : List Str),
    (∀ s ∈ segs, s ≠ ['.'] ∧ s ≠ ['.', '.']) →
    List.foldl (fun stack seg =>
      if seg = ['.'] then stack
      else if seg = ['.', '.'] then stack.dropLast
      else stack ++ [seg]) acc segs = acc ++ segs
| [], acc, _ => by simp
| s :: rest, acc, h => by
  rw [List.foldl_cons, if_neg (h s (List.mem_cons_self _ _)).1,
    if_neg (h s (List.mem_cons_self _ _)).2,
    foldl_rds_of_dotfree rest (acc ++ [s]) (fun x hx => h x (List.mem_cons_of_mem _ hx))]
  simp

theorem rdsFold_of_dotfree (segs : List Str)
    (h : ∀ s ∈ segs, s ≠ ['.'] ∧ s ≠ ['.', '.']) : rdsFold segs = segs := by
  unfold rdsFold
  rw [foldl_rds_of_dotfree segs [] h]
  rfl

theorem rdsFold_mem (segs : List Str) : ∀ (acc : List Str) (x : Str),
    x ∈ List.foldl (fun stack seg =>
      if seg = ['.'] then stack
      else if seg = ['.', '.'] then stack.dropLast
      else stack ++ [seg]) acc segs →
    x ∈ acc ∨ (x ∈ segs ∧ x ≠ ['.'] ∧ x ≠ ['.', '.']) := by
  induction segs with
  | nil =>
    intro acc x hx
    exact Or.inl (by simpa using hx)
  | cons s rest ih =>
    intro acc x hx
    rw [List.foldl_cons] at hx
    rcases ih _ x hx with h | h
    · by_cases h1 : s = ['.']
      · rw [if_pos h1] at h
        exact Or.inl h
      · by_cases h2 : s = ['.', '.']
        · rw [if_neg h1, if_pos h2] at h
          exact Or.inl (List.dropLast_subset _ h)
        · rw [if_neg h1, if_neg h2] at h
          rcases List.mem_append.mp h with h | h
          · exact Or.inl h
          · simp at h
            subst h
            exact Or.inr ⟨List.mem_cons_self _ _, h1, h2⟩
    · exact Or.inr ⟨List.mem_cons_of_mem _ h.1, h.2⟩

theorem mem_joinSlash_split (l : List Str)
    (hl : ∀ x ∈ l, x ≠ ['.'] ∧ x ≠ ['.', '.'] ∧ '/' ∉ x) :
    ∀ seg ∈ splitOnChar '/' (joinSlash l), seg ≠ ['.'] ∧ seg ≠ ['.', '.'] := by
  intro seg hseg
  rcases eq_or_ne l [] with rfl | hne
  · show seg ≠ ['.'] ∧ seg ≠ ['.', '.']
    have : seg ∈ splitOnChar '/' ([] : Str) := hseg
    simp [splitOnChar] at this
    subst this
    exact ⟨by simp, by simp⟩
  · rw [splitOnChar_joinSlash l hne (fun x hx => (hl x hx).2.2)] at hseg
    exact ⟨(hl seg hseg).1, (hl seg hseg).2.1⟩

theorem rds_dotfree (p : Str) :
    ∀ seg ∈ splitOnChar '/' (remove_dot_segments p), seg ≠ ['.'] ∧ seg ≠ ['.', '.'] := by
  have hrds : remove_dot_segments p = joinSlash
      (if ['/', '.'].isSuffixOf p ∨ ['/', '.', '.'].isSuffixOf p
       then rdsFold (splitOnChar '/' p) ++ [([] : Str)]
       else rdsFold (splitOnChar '/' p)) := rfl
  rw [hrds]
  apply mem_joinSlash_split
  intro x hx
  have hx' : x ∈ rdsFold (splitOnChar '/' p) ∨ x = [] := by
    split at hx
    · rcases List.mem_append.mp hx with h | h
      · exact Or.inl h
      · simp at h
        exact Or.inr h
    · exact Or.inl hx
  rcases hx' with hx' | rfl
  · have hm := rdsFold_mem (splitOnChar '/' p) [] x (by simpa [rdsFold] using hx')
    rcases hm with h | ⟨hmem2, h1, h2⟩
    · simp at h
    · exact ⟨h1, h2, mem_splitOnChar_no_delim '/' p x hmem2⟩
  · exact ⟨by simp, by simp, by simp⟩

theorem rds_of_dotfree (q : Str)
    (h : ∀ seg ∈ splitOnChar '/' q, seg ≠ ['.'] ∧ seg ≠ ['.', '.']) :
    remove_dot_segments q = q := by
  have hns1 : ¬ (['/', '.'].isSuffixOf q = true) := by
    intro hs
    rw [List.isSuffixOf_iff_suffix] at hs
    obtain ⟨e, he⟩ := hs
    have hmem : ['.'] ∈ splitOnChar '/' q := by
      rw [← he, show e ++ (['/', '.'] : Str) = e ++ '/' :: ['.'] from rfl, splitOnChar_append]
      refine List.mem_append_right _ ?_
      rw [splitOnChar_no_delim '/' ['.'] (by decide)]
      exact List.mem_cons_self _ _
    exact (h _ hmem).1 rfl
  have hns2 : ¬ (['/', '.', '.'].isSuffixOf q = true) := by
    intro hs
    rw [List.isSuffixOf_iff_suffix] at hs
    obtain ⟨e, he⟩ := hs
    have hmem : ['.', '.'] ∈ splitOnChar '/' q := by
      rw [← he, show e ++ (['/', '.', '.'] : Str) = e ++ '/' :: ['.', '.'] from rfl,
        splitOnChar_append]
      refine List.mem_append_right _ ?_
      rw [splitOnChar_no_delim '/' ['.', '.'] (by decide)]
      exact List.mem_cons_self _ _
    exact (h _ hmem).2 rfl
  have hrds : remove_dot_segments q = joinSlash
      (if ['/', '.'].isSuffixOf q ∨ ['/', '.', '.'].isSuffixOf q
       then rdsFold (splitOnChar '/' q) ++ [([] : Str)]
       else rdsFold (splitOnChar '/' q)) := rfl
  rw [hrds, if_neg (by rintro (hs | hs); exact hns1 hs; exact hns2 hs),
    rdsFold_of_dotfree _ h, joinSlash_splitOnChar]

/-- Claim C5: `remove_dot_segments` is idempotent. -/
theorem c5_rds_idempotent (p : Str) :
    remove_dot_segments (remove_dot_segments p) = remove_dot_segments p :=
  rds_of_dotfree (remove_dot_segments p) (rds_dotfree p)
